import Mathlib

/-!
Verification of the Unicode width-data generator
(`scripts/regen_unicode_width_data.py`).

The script's core is pure: string parsing of two Unicode data documents,
two property filters, a generic interval merger (`merge_ranges`) and a
contiguity collapser inside `parse_emoji_vs16_bases`.  We embed the code
shallowly: Python strings become `String`, Python `int(s, 16)` becomes an
`Option Int`-valued parser (a raising call is an `Except` error), lists of
`(lo, hi)` tuples become `List (Int × Int)`.
-/

namespace UnicodeWidthGen

/-! ## Python string primitives -/

/-- Python `s.strip()`: remove leading and trailing whitespace. -/
def pyStrip (s : String) : String :=
  ⟨((s.toList.dropWhile Char.isWhitespace).reverse.dropWhile Char.isWhitespace).reverse⟩

/-- Python `line.split("#", 1)[0]`: the text before the first `#`. -/
def stripComment (s : String) : String :=
  ⟨s.toList.takeWhile (fun c => c ≠ '#')⟩

/-- Python `s.split(sep)` on character lists, with explicit fuel.
The fuel only needs to dominate the length of the list; every call goes
through `pySplitStr`, which supplies `l.length`.  Leftmost separator
occurrence is cut first, exactly as in CPython. -/
def pySplitFuel (sep : List Char) : Nat → List Char → List (List Char)
  | 0, l => [l]
  | _ + 1, [] => [[]]
  | fuel + 1, c :: t =>
    if sep.isPrefixOf (c :: t) ∧ sep ≠ [] then
      [] :: pySplitFuel sep fuel ((c :: t).drop sep.length)
    else
      match pySplitFuel sep fuel t with
      | [] => [[c]]
      | h :: r => (c :: h) :: r

/-- Python `s.split(sep)` for a non-empty separator. -/
def pySplitStr (s sep : String) : List String :=
  (pySplitFuel sep.toList s.toList.length s.toList).map (fun cs => ⟨cs⟩)

/-- Python `sep in s` for a non-empty `sep`: the separator occurs as a
substring, which holds exactly when splitting on it yields more than one
part. -/
def pyIn (sep s : String) : Bool :=
  1 < (pySplitStr s sep).length

/-- Scanner for Python `s.split()` (no argument): words are maximal runs
of non-whitespace characters; no empty strings are produced. -/
def wsWordsAcc : List Char → List Char → List (List Char)
  | acc, [] => if acc = [] then [] else [acc.reverse]
  | acc, c :: t =>
    if c.isWhitespace then
      if acc = [] then wsWordsAcc [] t else acc.reverse :: wsWordsAcc [] t
    else wsWordsAcc (c :: acc) t

/-- Python `s.split()` (whitespace split, no empty parts). -/
def pySplitWhitespace (s : String) : List String :=
  (wsWordsAcc [] s.toList).map (fun cs => ⟨cs⟩)

/-- Scanner for Python `text.splitlines()`: splits at `\r\n`, `\n` or
`\r`, and a trailing newline does not produce a final empty line. -/
def splitlinesCh : List Char → List Char → List String
  | acc, [] => if acc = [] then [] else [⟨acc.reverse⟩]
  | acc, '\r' :: '\n' :: t => ⟨acc.reverse⟩ :: splitlinesCh [] t
  | acc, '\n' :: t => ⟨acc.reverse⟩ :: splitlinesCh [] t
  | acc, '\r' :: t => ⟨acc.reverse⟩ :: splitlinesCh [] t
  | acc, c :: t => splitlinesCh (c :: acc) t

/-- Python `text.splitlines()`. -/
def splitlines (s : String) : List String :=
  splitlinesCh [] s.toList

/-! ## Python `int(s, 16)` -/

/-- Hexadecimal digit test (`0-9`, `a-f`, `A-F`). -/
def isHexDigit (c : Char) : Bool :=
  c.isDigit || ('a' ≤ c && c ≤ 'f') || ('A' ≤ c && c ≤ 'F')

/-- Value of a hexadecimal digit. -/
def hexDigitVal (c : Char) : Nat :=
  if c.isDigit then c.toNat - 48
  else if 'a' ≤ c && c ≤ 'f' then c.toNat - 87
  else c.toNat - 55

/-- Digit-string tail check: each underscore must be immediately followed
by a hex digit (CPython's rule: underscores only between digits). -/
def hexTailOK : List Char → Bool
  | [] => true
  | '_' :: t => (match t with | d :: _ => isHexDigit d | [] => false) && hexTailOK t
  | c :: t => isHexDigit c && hexTailOK t

/-- A valid digit group: non-empty, starts with a hex digit, underscores
only between digits. -/
def hexDigitsOK : List Char → Bool
  | [] => false
  | c :: t => isHexDigit c && hexTailOK t

/-- Numeric value of a digit group, ignoring underscores. -/
def hexValue (l : List Char) : Nat :=
  (l.filter (fun c => c ≠ '_')).foldl (fun a c => 16 * a + hexDigitVal c) 0

/-- Digits after a `0x`/`0X` prefix: CPython allows one underscore
directly after the prefix. -/
def hexAfterPre (t : List Char) : Option Nat :=
  match t with
  | '_' :: t' => if hexDigitsOK t' then some (hexValue t') else none
  | _ => if hexDigitsOK t then some (hexValue t) else none

/-- Unsigned part of `int(s, 16)`. -/
def pyIntHexCore (l : List Char) : Option Nat :=
  match l with
  | '0' :: 'x' :: t => hexAfterPre t
  | '0' :: 'X' :: t => hexAfterPre t
  | _ => if hexDigitsOK l then some (hexValue l) else none

/-- Python `int(s, 16)`: strip whitespace, optional sign, optional
`0x` prefix, hex digits.  `none` models a raised `ValueError`. -/
def pyIntHex (s : String) : Option Int :=
  match (pyStrip s).toList with
  | '-' :: t => (pyIntHexCore t).map (fun n => -(n : Int))
  | '+' :: t => (pyIntHexCore t).map (fun n => (n : Int))
  | l => (pyIntHexCore l).map (fun n => (n : Int))

/-! ## `merge_ranges` -/

/-- Python tuple comparison `(a, b) <= (c, d)`: lexicographic. -/
def lexLe (a b : Int × Int) : Prop :=
  a.1 < b.1 ∨ (a.1 = b.1 ∧ a.2 ≤ b.2)

instance : DecidableRel lexLe := fun a b => by
  unfold lexLe; exact inferInstance

instance : IsTotal (Int × Int) lexLe :=
  ⟨by intro a b; unfold lexLe; omega⟩

instance : IsTrans (Int × Int) lexLe :=
  ⟨by intro a b c; unfold lexLe; omega⟩

instance : IsAntisymm (Int × Int) lexLe := by
  constructor
  intro a b h1 h2
  unfold lexLe at h1 h2
  have h : a.1 = b.1 ∧ a.2 = b.2 := by omega
  exact Prod.ext h.1 h.2

/-- Python `sorted(ranges)`. -/
def sortRanges (l : List (Int × Int)) : List (Int × Int) :=
  List.insertionSort lexLe l

/-- The accumulator loop of `merge_ranges`: `cur` is the open interval at
the end of `merged`; a range with `lo <= cur[1] + 1` extends it,
otherwise `cur` is emitted and restarted. -/
def mergeLoop (cur : Int × Int) : List (Int × Int) → List (Int × Int)
  | [] => [cur]
  | (lo, hi) :: t =>
    if lo ≤ cur.2 + 1 then mergeLoop (cur.1, max cur.2 hi) t
    else cur :: mergeLoop (lo, hi) t

/-- `merge_ranges(ranges)` from the script: sort, then a single merging
scan seeded with the first range. -/
def merge_ranges (l : List (Int × Int)) : List (Int × Int) :=
  match sortRanges l with
  | [] => []
  | r :: rest => mergeLoop r rest

/-! ## Contiguity collapser (second half of `parse_emoji_vs16_bases`) -/

/-- The `for b in bases` scan: `(start, prev)` is the open run. -/
def collapseLoop (start prev : Int) : List Int → List (Int × Int)
  | [] => [(start, prev)]
  | b :: t =>
    if b = prev + 1 then collapseLoop start b t
    else (start, prev) :: collapseLoop b b t

/-- The collapser including the `start is None` initialization and the
final flush. -/
def collapse : List Int → List (Int × Int)
  | [] => []
  | b :: t => collapseLoop b b t

/-- Python `sorted(set(bases))`. -/
def sortedDedup (l : List Int) : List Int :=
  List.insertionSort (fun a b => a ≤ b) l.dedup

/-! ## Range membership -/

/-- Does closed range `p` cover point `x`? -/
def inRangeB (p : Int × Int) (x : Int) : Bool :=
  decide (p.1 ≤ x) && decide (x ≤ p.2)

/-- Does some range of `l` cover `x`?  The union of a range list, as a
decidable point predicate. -/
def covers (l : List (Int × Int)) (x : Int) : Bool :=
  l.any (fun p => inRangeB p x)

/-! ## The two document parsers -/

/-- Per-line preprocessing shared by both parsers:
`line.split("#", 1)[0].strip()`. -/
def lineStripped (line : String) : String :=
  pyStrip (stripComment line)

/-- `[x.strip() for x in line.split(";")]` applied to the stripped line. -/
def lineFields (line : String) : List String :=
  (pySplitStr (lineStripped line) ";").map pyStrip

/-- Conversion of the East Asian Width range token: `lo, hi =
code_range.split("..")` when `".." in code_range` (a `ValueError` when
the split does not have exactly two parts), else `lo = hi = code_range`;
then `int(_, 16)` on both sides.  `Except.error ()` models an uncaught
exception. -/
def eawTokenRange (t : String) : Except Unit (Int × Int) :=
  if pyIn ".." t then
    match pySplitStr t ".." with
    | [a, b] =>
      match pyIntHex a, pyIntHex b with
      | some lo, some hi => .ok (lo, hi)
      | _, _ => .error ()
    | _ => .error ()
  else
    match pyIntHex t with
    | some v => .ok (v, v)
    | none => .error ()

/-- One loop iteration of `parse_east_asian_width`: `none` for a skipped
line, `some (lo, hi)` for an appended range, `Except.error` for a raised
exception. -/
def eawLine (line : String) : Except Unit (Option (Int × Int)) :=
  if lineStripped line = "" then .ok none
  else if (lineFields line).length < 2 then .ok none
  else if (lineFields line).getD 1 "" = "W" ∨ (lineFields line).getD 1 "" = "F" then
    (eawTokenRange ((lineFields line).getD 0 "")).map some
  else .ok none

/-- The whole `for line in text.splitlines()` loop of
`parse_east_asian_width`, collecting `ranges`. -/
def eawCollect : List String → Except Unit (List (Int × Int))
  | [] => .ok []
  | line :: rest =>
    match eawLine line with
    | .error e => .error e
    | .ok none => eawCollect rest
    | .ok (some p) => (eawCollect rest).map (fun l => p :: l)

/-- `parse_east_asian_width(text)`. -/
def parse_east_asian_width (text : String) : Except Unit (List (Int × Int)) :=
  (eawCollect (splitlines text)).map merge_ranges

/-- One loop iteration of the first loop of `parse_emoji_vs16_bases`:
`none` for a skipped line, `some base` for an appended base code point,
`Except.error` for a raised exception. -/
def evsLine (line : String) : Except Unit (Option Int) :=
  if lineStripped line = "" then .ok none
  else if (lineFields line).length < 2 then .ok none
  else if (lineFields line).getD 1 "" = "emoji style" then
    if (pySplitWhitespace ((lineFields line).getD 0 "")).length = 2 then
      match pyIntHex ((pySplitWhitespace ((lineFields line).getD 0 "")).getD 0 ""),
            pyIntHex ((pySplitWhitespace ((lineFields line).getD 0 "")).getD 1 "") with
      | some base, some vs =>
        if vs = (0xFE0F : Int) then .ok (some base) else .ok none
      | _, _ => .error ()
    else .ok none
  else .ok none

/-- The whole first loop of `parse_emoji_vs16_bases`, collecting
`bases`. -/
def evsCollect : List String → Except Unit (List Int)
  | [] => .ok []
  | line :: rest =>
    match evsLine line with
    | .error e => .error e
    | .ok none => evsCollect rest
    | .ok (some b) => (evsCollect rest).map (fun l => b :: l)

/-- `parse_emoji_vs16_bases(text)`: collect the bases, then
`sorted(set(bases))` followed by the contiguity scan. -/
def parse_emoji_vs16_bases (text : String) : Except Unit (List (Int × Int)) :=
  (evsCollect (splitlines text)).map (fun bases => collapse (sortedDedup bases))

/-! ## `main`: rendering and the run outcome -/

/-- Uppercase hex digits of a positive number, most significant first. -/
def natHexDigits : Nat → List Char
  | 0 => []
  | n + 1 =>
    natHexDigits ((n + 1) / 16) ++
      [if (n + 1) % 16 < 10 then Char.ofNat (48 + (n + 1) % 16)
       else Char.ofNat (55 + (n + 1) % 16)]
decreasing_by exact Nat.div_lt_self (Nat.succ_pos n) (by omega)

/-- Python `f"{i:04X}"`: zero-padded to overall width 4, sign included
in the width. -/
def fmt04X (i : Int) : String :=
  if i < 0 then
    let s : List Char := natHexDigits i.natAbs
    "-" ++ ⟨List.replicate (3 - s.length) '0'⟩ ++ ⟨s⟩
  else
    let s : List Char := if i.natAbs = 0 then ['0'] else natHexDigits i.natAbs
    ⟨List.replicate (4 - s.length) '0'⟩ ++ ⟨s⟩

/-- One generated table line:
`f"        Range(lo: 0x{lo:04X}, hi: 0x{hi:04X}),\n"`. -/
def renderRangeLine (p : Int × Int) : String :=
  "        Range(lo: 0x" ++ fmt04X p.1 ++ ", hi: 0x" ++ fmt04X p.2 ++ "),\n"

/-- The text `main` joins and writes to `UnicodeWidthData.swift`. -/
def render (eaw evs : List (Int × Int)) : String :=
  "// This file is generated from Unicode data files. Do not edit by hand.\n"
  ++ "struct UnicodeWidthData \x7b\n"
  ++ "    typealias Range = UnicodeUtil.LH\n\n"
  ++ "    static let eastAsianWide: [Range] = [\n"
  ++ String.join (eaw.map renderRangeLine)
  ++ "    ]\n\n"
  ++ "    static let emojiVs16Base: [Range] = [\n"
  ++ String.join (evs.map renderRangeLine)
  ++ "    ]\n"
  ++ "\x7d\n"

/-- `main`, given the two fetched documents: parse the East Asian Width
document, then the emoji document, then build the output text.  An
`Except.error` is an uncaught exception: the run exits non-zero and the
write step is never reached, so no artifact is produced. -/
def mainRun (eawText evsText : String) : Except Unit String :=
  match parse_east_asian_width eawText with
  | .error e => .error e
  | .ok eaw =>
    match parse_emoji_vs16_bases evsText with
    | .error e => .error e
    | .ok evs => .ok (render eaw evs)

/-! ## Lemmas about the sort -/

theorem lexLe_first {a b : Int × Int} (h : lexLe a b) : a.1 ≤ b.1 := by
  unfold lexLe at h; omega

theorem sortRanges_perm (l : List (Int × Int)) : (sortRanges l).Perm l :=
  List.perm_insertionSort lexLe l

theorem sortRanges_sorted (l : List (Int × Int)) :
    List.Sorted lexLe (sortRanges l) :=
  List.sorted_insertionSort lexLe l

theorem covers_perm {l₁ l₂ : List (Int × Int)} (h : l₁.Perm l₂) (x : Int) :
    covers l₁ x = covers l₂ x := by
  rw [Bool.eq_iff_iff]
  simp only [covers, List.any_eq_true]
  constructor
  · rintro ⟨p, hp, hx⟩; exact ⟨p, h.mem_iff.mp hp, hx⟩
  · rintro ⟨p, hp, hx⟩; exact ⟨p, h.mem_iff.mpr hp, hx⟩

/-! ## Lemmas about `mergeLoop` -/

/-- The first emitted range starts where the accumulator starts, and its
upper bound only ever grows. -/
theorem mergeLoop_head : ∀ (rest : List (Int × Int)) (cur : Int × Int),
    ∃ h₂ t, cur.2 ≤ h₂ ∧ mergeLoop cur rest = (cur.1, h₂) :: t := by
  intro rest
  induction rest with
  | nil => exact fun cur => ⟨cur.2, [], le_refl _, rfl⟩
  | cons p t ih =>
    intro cur
    obtain ⟨lo, hi⟩ := p
    by_cases h : lo ≤ cur.2 + 1
    · obtain ⟨h₂, t', hle, heq⟩ := ih (cur.1, max cur.2 hi)
      refine ⟨h₂, t', le_trans (le_max_left _ _) hle, ?_⟩
      simpa [mergeLoop, h] using heq
    · exact ⟨cur.2, mergeLoop (lo, hi) t, le_refl _, by simp [mergeLoop, h]⟩

/-- Consecutive output ranges of the merge scan are separated by a real
gap: `prev.hi + 1 < next.lo`. -/
theorem mergeLoop_chain : ∀ (rest : List (Int × Int)) (cur : Int × Int),
    List.Chain' (fun p q => p.2 + 1 < q.1) (mergeLoop cur rest) := by
  intro rest
  induction rest with
  | nil => intro cur; simp [mergeLoop]
  | cons p t ih =>
    intro cur
    obtain ⟨lo, hi⟩ := p
    by_cases h : lo ≤ cur.2 + 1
    · simpa [mergeLoop, h] using ih (cur.1, max cur.2 hi)
    · obtain ⟨h₂, t', _, heq⟩ := mergeLoop_head t (lo, hi)
      have hch := ih (lo, hi)
      simp only [mergeLoop, if_neg h]
      rw [heq] at hch ⊢
      rw [List.chain'_cons]
      exact ⟨by omega, hch⟩

/-- The merge scan preserves `lo ≤ hi`. -/
theorem mergeLoop_lo_le_hi : ∀ (rest : List (Int × Int)) (cur : Int × Int),
    cur.1 ≤ cur.2 → (∀ p ∈ rest, p.1 ≤ p.2) →
    ∀ p ∈ mergeLoop cur rest, p.1 ≤ p.2 := by
  intro rest
  induction rest with
  | nil =>
    intro cur hc _ p hp
    simp only [mergeLoop, List.mem_singleton] at hp
    subst hp; exact hc
  | cons q t ih =>
    intro cur hc hrest p hp
    obtain ⟨lo, hi⟩ := q
    have hq : lo ≤ hi := hrest (lo, hi) (by simp)
    by_cases h : lo ≤ cur.2 + 1
    · rw [mergeLoop, if_pos h] at hp
      exact ih (cur.1, max cur.2 hi) (by simp; omega)
        (fun r hr => hrest r (by simp [hr])) p hp
    · rw [mergeLoop, if_neg h] at hp
      rcases List.mem_cons.mp hp with rfl | hp'
      · exact hc
      · exact ih (lo, hi) hq (fun r hr => hrest r (by simp [hr])) p hp'

/-- For lists of genuine closed ranges (`lo ≤ hi`), the consecutive-gap
chain gives the pairwise gap property. -/
theorem gap_chain_pairwise : ∀ (l : List (Int × Int)),
    (∀ p ∈ l, p.1 ≤ p.2) → List.Chain' (fun p q => p.2 + 1 < q.1) l →
    List.Pairwise (fun p q => p.2 + 1 < q.1) l := by
  intro l
  induction l with
  | nil => simp
  | cons a t ih =>
    intro hlh hch
    rcases t with _ | ⟨b, t'⟩
    · simp
    · rw [List.chain'_cons] at hch
      have hpt : List.Pairwise (fun p q => p.2 + 1 < q.1) (b :: t') :=
        ih (fun p hp => hlh p (by simp at hp ⊢; tauto)) hch.2
      rw [List.pairwise_cons]
      refine ⟨?_, hpt⟩
      intro q hq
      rcases List.mem_cons.mp hq with rfl | hq'
      · exact hch.1
      · have hbq : b.2 + 1 < q.1 := List.rel_of_pairwise_cons hpt hq'
        have hb : b.1 ≤ b.2 := hlh b (by simp)
        omega

/-- Extending the accumulator to `max cur.hi hi` covers exactly the
union, provided the incoming range starts no earlier than the
accumulator and overlaps or touches it. -/
theorem inRangeB_merge (cur : Int × Int) (lo hi x : Int)
    (h1 : cur.1 ≤ lo) (h2 : lo ≤ cur.2 + 1) :
    inRangeB (cur.1, max cur.2 hi) x = (inRangeB cur x || inRangeB (lo, hi) x) := by
  rw [Bool.eq_iff_iff]
  simp only [inRangeB, Bool.or_eq_true, Bool.and_eq_true, decide_eq_true_eq]
  constructor
  · rintro ⟨ha, hb⟩
    rcases le_or_lt x cur.2 with h | h
    · exact Or.inl ⟨ha, h⟩
    · right; constructor <;> omega
  · rintro (⟨ha, hb⟩ | ⟨ha, hb⟩)
    · exact ⟨ha, le_trans hb (le_max_left _ _)⟩
    · exact ⟨le_trans h1 ha, le_trans hb (le_max_right _ _)⟩

/-- The merge scan covers exactly the accumulator's points plus the
points of the remaining input, when the input is sorted by `lo` after
the accumulator. -/
theorem mergeLoop_covers : ∀ (rest : List (Int × Int)) (cur : Int × Int),
    (∀ p ∈ rest, cur.1 ≤ p.1) →
    List.Pairwise (fun p q : Int × Int => p.1 ≤ q.1) rest →
    ∀ x, covers (mergeLoop cur rest) x = (inRangeB cur x || covers rest x) := by
  intro rest
  induction rest with
  | nil => intro cur _ _ x; simp [mergeLoop, covers]
  | cons p t ih =>
    intro cur hfst hpw x
    obtain ⟨lo, hi⟩ := p
    rw [List.pairwise_cons] at hpw
    by_cases h : lo ≤ cur.2 + 1
    · have hlo : cur.1 ≤ lo := hfst (lo, hi) (by simp)
      have hfst' : ∀ q ∈ t, (cur.1, max cur.2 hi).1 ≤ q.1 :=
        fun q hq => le_trans hlo (hpw.1 q hq)
      have hih := ih (cur.1, max cur.2 hi) hfst' hpw.2 x
      rw [mergeLoop, if_pos h, hih, inRangeB_merge cur lo hi x hlo h]
      simp [covers, Bool.or_assoc]
    · have hih := ih (lo, hi) (fun q hq => hpw.1 q hq) hpw.2 x
      rw [mergeLoop, if_neg h]
      simp only [covers, List.any_cons] at hih ⊢
      rw [hih]

/-- Master lemma: output of `merge_ranges` consists of closed ranges,
consecutive ones separated by a gap, covering exactly the input's
points. -/
theorem merge_ranges_master (l : List (Int × Int))
    (hlh : ∀ p ∈ l, p.1 ≤ p.2) :
    (∀ p ∈ merge_ranges l, p.1 ≤ p.2) ∧
    List.Pairwise (fun p q => p.2 + 1 < q.1) (merge_ranges l) ∧
    (∀ x, covers (merge_ranges l) x = covers l x) := by
  unfold merge_ranges
  rcases hs : sortRanges l with _ | ⟨r, rest⟩
  · have hl : l = [] := by
      have hp := sortRanges_perm l
      rw [hs] at hp
      exact hp.symm.eq_nil
    subst hl
    simp
  · have hsorted := sortRanges_sorted l
    rw [hs] at hsorted
    have hperm := sortRanges_perm l
    rw [hs] at hperm
    have hlh' : ∀ p ∈ r :: rest, p.1 ≤ p.2 :=
      fun p hp => hlh p (hperm.mem_iff.mp hp)
    have hfst : ∀ p ∈ rest, r.1 ≤ p.1 :=
      fun p hp => lexLe_first (List.rel_of_pairwise_cons hsorted hp)
    have hpwrest : List.Pairwise (fun p q : Int × Int => p.1 ≤ q.1) rest :=
      (hsorted.of_cons).imp lexLe_first
    have hcl : ∀ p ∈ mergeLoop r rest, p.1 ≤ p.2 :=
      mergeLoop_lo_le_hi rest r (hlh' r (by simp))
        (fun p hp => hlh' p (by simp [hp]))
    refine ⟨hcl, gap_chain_pairwise _ hcl (mergeLoop_chain rest r), ?_⟩
    intro x
    rw [mergeLoop_covers rest r hfst hpwrest x]
    have : (inRangeB r x || covers rest x) = covers (r :: rest) x := by
      simp [covers]
    rw [this]
    exact covers_perm hperm x

/-- **C1.** For every finite collection of closed integer ranges each
satisfying `lo ≤ hi`, `merge_ranges` returns a list that is sorted
ascending by `lo`, pairwise disjoint, has no two consecutive ranges with
`prev.hi + 1 = next.lo`, and whose union of covered code points equals
the union of covered code points of the input. -/
theorem merge_ranges_correct (l : List (Int × Int))
    (hlh : ∀ p ∈ l, p.1 ≤ p.2) :
    List.Pairwise (fun p q => p.1 < q.1) (merge_ranges l) ∧
    List.Pairwise
      (fun p q => ∀ x : Int, ¬(inRangeB p x = true ∧ inRangeB q x = true))
      (merge_ranges l) ∧
    List.Chain' (fun p q => p.2 + 1 ≠ q.1) (merge_ranges l) ∧
    (∀ x : Int, covers (merge_ranges l) x = covers l x) := by
  obtain ⟨hcl, hgap, hcov⟩ := merge_ranges_master l hlh
  refine ⟨?_, ?_, ?_, hcov⟩
  · refine hgap.imp_of_mem ?_
    intro p q hp _ h
    have := hcl p hp
    omega
  · refine hgap.imp ?_
    intro p q h x hx
    simp only [inRangeB, Bool.and_eq_true, decide_eq_true_eq] at hx
    omega
  · exact hgap.chain'.imp (fun h => by omega)

/-- Witness for C1 at the concrete input `[(1, 3), (2, 5)]`. -/
theorem merge_ranges_correct_witness :
    covers (merge_ranges [(1, 3), (2, 5)]) 4 = covers [(1, 3), (2, 5)] 4 :=
  (merge_ranges_correct [(1, 3), (2, 5)] (by decide)).2.2.2 4

/-- An already merged list (closed ranges, consecutive gaps) is sorted
for the lexicographic tuple order used by Python's `sorted`. -/
theorem sorted_of_gap (l : List (Int × Int))
    (hlh : ∀ p ∈ l, p.1 ≤ p.2)
    (hg : List.Chain' (fun p q => p.2 + 1 < q.1) l) :
    List.Sorted lexLe l := by
  refine (gap_chain_pairwise l hlh hg).imp_of_mem ?_
  intro p q hp _ h
  have := hlh p hp
  exact Or.inl (by omega)

/-- On an input whose consecutive ranges already have gaps, the merge
scan copies its input. -/
theorem mergeLoop_of_gaps : ∀ (rest : List (Int × Int)) (cur : Int × Int),
    List.Chain' (fun p q => p.2 + 1 < q.1) (cur :: rest) →
    mergeLoop cur rest = cur :: rest := by
  intro rest
  induction rest with
  | nil => intro cur _; rfl
  | cons p t ih =>
    intro cur hch
    obtain ⟨lo, hi⟩ := p
    rw [List.chain'_cons] at hch
    have h : ¬ lo ≤ cur.2 + 1 := by have := hch.1; omega
    rw [mergeLoop, if_neg h, ih (lo, hi) hch.2]

/-- **C5.** The Range Merger is idempotent: a collection of closed
ranges that is already sorted, pairwise disjoint and non-adjacent
(equivalently, consecutive ranges satisfy `prev.hi + 1 < next.lo`, the
shape of every `merge_ranges` output) is returned unchanged. -/
theorem merge_ranges_idempotent (l : List (Int × Int))
    (hlh : ∀ p ∈ l, p.1 ≤ p.2)
    (hg : List.Chain' (fun p q => p.2 + 1 < q.1) l) :
    merge_ranges l = l := by
  have hsort : sortRanges l = l :=
    List.eq_of_perm_of_sorted (sortRanges_perm l) (sortRanges_sorted l)
      (sorted_of_gap l hlh hg)
  unfold merge_ranges
  rw [hsort]
  rcases l with _ | ⟨r, rest⟩
  · rfl
  · show mergeLoop r rest = r :: rest
    exact mergeLoop_of_gaps rest r hg

/-- Witness for C5 at the concrete input `[(1, 2), (5, 6)]`. -/
theorem merge_ranges_idempotent_witness :
    merge_ranges [(1, 2), (5, 6)] = [(1, 2), (5, 6)] :=
  merge_ranges_idempotent [(1, 2), (5, 6)] (by decide)
    (by simp [List.chain'_cons])

/-- **C6.** The Range Merger is order-invariant: permuting the input
multiset (of closed ranges with `lo ≤ hi`) never changes the output. -/
theorem merge_ranges_perm_invariant (l₁ l₂ : List (Int × Int))
    (hp : l₁.Perm l₂) (_hlh : ∀ p ∈ l₁, p.1 ≤ p.2) :
    merge_ranges l₁ = merge_ranges l₂ := by
  have hs : sortRanges l₁ = sortRanges l₂ :=
    List.eq_of_perm_of_sorted
      ((sortRanges_perm l₁).trans (hp.trans (sortRanges_perm l₂).symm))
      (sortRanges_sorted l₁) (sortRanges_sorted l₂)
  unfold merge_ranges
  rw [hs]

/-- Witness for C6 at the concrete inputs `[(5, 6), (1, 2)]` and
`[(1, 2), (5, 6)]`. -/
theorem merge_ranges_perm_invariant_witness :
    merge_ranges [(5, 6), (1, 2)] = merge_ranges [(1, 2), (5, 6)] :=
  merge_ranges_perm_invariant [(5, 6), (1, 2)] [(1, 2), (5, 6)]
    (List.Perm.swap (1, 2) (5, 6) []) (by decide)

/-! ## Lemmas about the contiguity collapser -/

/-- The first emitted run starts at `start`, and its upper end only ever
grows from `prev`. -/
theorem collapseLoop_head : ∀ (rest : List Int) (start prev : Int),
    ∃ p₂ t, prev ≤ p₂ ∧ collapseLoop start prev rest = (start, p₂) :: t := by
  intro rest
  induction rest with
  | nil => exact fun start prev => ⟨prev, [], le_refl _, rfl⟩
  | cons b t ih =>
    intro start prev
    by_cases h : b = prev + 1
    · obtain ⟨p₂, t', hle, heq⟩ := ih start b
      refine ⟨p₂, t', by omega, ?_⟩
      simpa [collapseLoop, h] using heq
    · exact ⟨prev, collapseLoop b b t, le_refl _, by simp [collapseLoop, h]⟩

/-- Runs emitted from a strictly increasing base list are separated by
real gaps. -/
theorem collapseLoop_chain : ∀ (rest : List Int) (start prev : Int),
    List.Chain' (· < ·) (prev :: rest) →
    List.Chain' (fun p q => p.2 + 1 < q.1) (collapseLoop start prev rest) := by
  intro rest
  induction rest with
  | nil => intro start prev _; simp [collapseLoop]
  | cons b t ih =>
    intro start prev hch
    rw [List.chain'_cons] at hch
    by_cases h : b = prev + 1
    · simpa [collapseLoop, h] using ih start b hch.2
    · obtain ⟨p₂, t', _, heq⟩ := collapseLoop_head t b b
      have hrec := ih b b hch.2
      simp only [collapseLoop, if_neg h]
      rw [heq] at hrec ⊢
      rw [List.chain'_cons]
      exact ⟨by omega, hrec⟩

/-- Every emitted run is a genuine closed range. -/
theorem collapseLoop_lo_le_hi : ∀ (rest : List Int) (start prev : Int),
    start ≤ prev → List.Chain' (· < ·) (prev :: rest) →
    ∀ p ∈ collapseLoop start prev rest, p.1 ≤ p.2 := by
  intro rest
  induction rest with
  | nil =>
    intro start prev hsp _ p hp
    simp only [collapseLoop, List.mem_singleton] at hp
    subst hp; exact hsp
  | cons b t ih =>
    intro start prev hsp hch p hp
    rw [List.chain'_cons] at hch
    by_cases h : b = prev + 1
    · rw [collapseLoop, if_pos h] at hp
      exact ih start b (by omega) hch.2 p hp
    · rw [collapseLoop, if_neg h] at hp
      rcases List.mem_cons.mp hp with rfl | hp'
      · exact hsp
      · exact ih b b (le_refl _) hch.2 p hp'

/-- The collapser scan covers the open run `[start, prev]` plus exactly
the remaining base points. -/
theorem collapseLoop_covers : ∀ (rest : List Int) (start prev : Int),
    start ≤ prev → List.Chain' (· < ·) (prev :: rest) →
    ∀ x, covers (collapseLoop start prev rest) x =
      (decide (start ≤ x ∧ x ≤ prev) || rest.contains x) := by
  intro rest
  induction rest with
  | nil =>
    intro start prev _ _ x
    rw [Bool.eq_iff_iff]
    simp only [collapseLoop, covers, inRangeB, List.any_cons, List.any_nil,
      Bool.or_false, Bool.or_eq_true, Bool.and_eq_true, decide_eq_true_eq]
    simp
  | cons b t ih =>
    intro start prev hsp hch x
    rw [List.chain'_cons] at hch
    by_cases h : b = prev + 1
    · have hih := ih start b (by omega) hch.2 x
      rw [collapseLoop, if_pos h, hih, List.contains_cons, Bool.eq_iff_iff]
      subst h
      cases hct : t.contains x
      · simp only [hct, Bool.or_false, Bool.or_eq_true, decide_eq_true_eq,
          beq_iff_eq]
        omega
      · simp [hct]
    · have hih := ih b b (le_refl _) hch.2 x
      rw [collapseLoop, if_neg h, covers, List.any_cons]
      have hh : ((collapseLoop b b t).any fun p => inRangeB p x)
          = covers (collapseLoop b b t) x := rfl
      rw [hh, hih, List.contains_cons, Bool.eq_iff_iff]
      cases hct : t.contains x
      · simp only [hct, Bool.or_false, Bool.or_eq_true, decide_eq_true_eq,
          beq_iff_eq, inRangeB, Bool.and_eq_true]
        omega
      · simp [hct]

/-- `sorted(set(bases))` is strictly increasing. -/
theorem sortedDedup_chain (l : List Int) :
    List.Chain' (· < ·) (sortedDedup l) := by
  have hs : List.Sorted (fun a b : Int => a ≤ b) (sortedDedup l) :=
    List.sorted_insertionSort _ l.dedup
  have hn : (sortedDedup l).Nodup :=
    (List.perm_insertionSort _ l.dedup).nodup_iff.mpr l.nodup_dedup
  have hp : List.Pairwise (fun a b : Int => a < b) (sortedDedup l) :=
    (hs.and hn).imp (fun h => lt_of_le_of_ne h.1 h.2)
  exact hp.chain'

/-- `sorted(set(bases))` has the same members as the original list. -/
theorem sortedDedup_mem (l : List Int) (x : Int) :
    x ∈ sortedDedup l ↔ x ∈ l :=
  (List.perm_insertionSort _ l.dedup).mem_iff.trans List.mem_dedup

/-- Master lemma for the collapser: on a strictly increasing input it
produces closed ranges, gap-separated, covering exactly the input
points. -/
theorem collapse_master (S : List Int) (hch : List.Chain' (· < ·) S) :
    (∀ p ∈ collapse S, p.1 ≤ p.2) ∧
    List.Pairwise (fun p q => p.2 + 1 < q.1) (collapse S) ∧
    (∀ x, covers (collapse S) x = S.contains x) := by
  rcases S with _ | ⟨b, t⟩
  · exact ⟨by simp [collapse], by simp [collapse], by intro x; rfl⟩
  · have hcl := collapseLoop_lo_le_hi t b b (le_refl _) hch
    have hchain := collapseLoop_chain t b b hch
    refine ⟨hcl, gap_chain_pairwise _ hcl hchain, ?_⟩
    intro x
    show covers (collapseLoop b b t) x = List.contains (b :: t) x
    rw [collapseLoop_covers t b b (le_refl _) hch x, List.contains_cons,
      Bool.eq_iff_iff]
    cases hct : t.contains x
    · simp only [hct, Bool.or_false, Bool.or_eq_true, decide_eq_true_eq,
        beq_iff_eq]
      omega
    · simp [hct]

/-- `l.contains` as membership. -/
theorem contains_iff_mem (l : List Int) (x : Int) :
    l.contains x = true ↔ x ∈ l :=
  List.elem_iff

/-- **C2.** For every finite set of distinct scalar code points
(modelled as the member-set of an arbitrary list `l`; the scan in
`parse_emoji_vs16_bases` runs on `sortedDedup l`, i.e. on
`sorted(set(bases))`), the contiguity collapser returns sorted closed
ranges such that each range is a maximal run of consecutive integers
present in the input, re-expanding every output range reproduces exactly
the input set, and empty input produces an empty sequence. -/
theorem collapse_spec (l : List Int) :
    (∀ p ∈ collapse (sortedDedup l), p.1 ≤ p.2) ∧
    List.Pairwise (fun p q => p.2 + 1 < q.1) (collapse (sortedDedup l)) ∧
    (∀ x : Int, covers (collapse (sortedDedup l)) x = l.contains x) ∧
    (∀ p ∈ collapse (sortedDedup l),
      (∀ x : Int, p.1 ≤ x → x ≤ p.2 → l.contains x = true) ∧
      l.contains (p.1 - 1) = false ∧ l.contains (p.2 + 1) = false) ∧
    collapse [] = [] := by
  obtain ⟨hcl, hgap, hcov⟩ := collapse_master (sortedDedup l) (sortedDedup_chain l)
  have hcov' : ∀ x : Int, covers (collapse (sortedDedup l)) x = l.contains x := by
    intro x
    rw [hcov x, Bool.eq_iff_iff, contains_iff_mem, contains_iff_mem]
    exact sortedDedup_mem l x
  refine ⟨hcl, hgap, hcov', ?_, rfl⟩
  intro p hp
  have hplh := hcl p hp
  have hsym : List.Pairwise
      (fun p q : Int × Int => p.2 + 1 < q.1 ∨ q.2 + 1 < p.1)
      (collapse (sortedDedup l)) := hgap.imp (fun h => Or.inl h)
  have hout : ∀ y : Int, (y + 1 = p.1 ∨ y = p.2 + 1) → l.contains y = false := by
    intro y hy
    cases hc : l.contains y with
    | false => rfl
    | true =>
      exfalso
      have hcy : covers (collapse (sortedDedup l)) y = true := by
        rw [hcov' y, hc]
      obtain ⟨q, hq, hqx⟩ := List.any_eq_true.mp hcy
      simp only [inRangeB, Bool.and_eq_true, decide_eq_true_eq] at hqx
      by_cases hqp : q = p
      · subst hqp; omega
      · have hR := List.Pairwise.forall
          (fun a b h => Or.symm h) hsym hp hq (fun he => hqp he.symm)
        rcases hR with hg | hg <;> omega
  refine ⟨?_, hout (p.1 - 1) (Or.inl (by omega)), hout (p.2 + 1) (Or.inr rfl)⟩
  intro x h1 h2
  rw [← hcov' x]
  refine List.any_eq_true.mpr ⟨p, hp, ?_⟩
  simp only [inRangeB, Bool.and_eq_true, decide_eq_true_eq]
  exact ⟨h1, h2⟩

/-- Witness for C2, exercised at the spec's adjacency example
`{0x10, 0x11, 0x12, 0x20}`: the first collapsed range is `(0x10, 0x12)`
and it is maximal (`0x0F` and `0x13` are absent from the input). -/
theorem collapse_spec_witness :
    [(16 : Int), 17, 18, 32].contains ((16 : Int) - 1) = false ∧
    [(16 : Int), 17, 18, 32].contains ((18 : Int) + 1) = false :=
  have h := (collapse_spec [(16 : Int), 17, 18, 32]).2.2.2.1
    ((16 : Int), (18 : Int)) (by decide)
  ⟨h.2.1, h.2.2⟩

/-! ## Lemmas about the record parsers -/

/-- A line that is empty after comment-stripping and trimming has
exactly one (empty) field. -/
theorem lineFields_of_stripped_empty (line : String)
    (h : lineStripped line = "") : lineFields line = [""] := by
  unfold lineFields
  rw [h]
  rfl

/-- A line with at least two fields is not empty after stripping. -/
theorem stripped_ne_of_fields (line : String)
    (hf : 2 ≤ (lineFields line).length) : ¬ lineStripped line = "" := by
  intro h
  rw [lineFields_of_stripped_empty line h] at hf
  simp at hf

/-- **C3.** For every syntactically valid East Asian Width record (at
least two fields) with a well-formed hex token, the filter contributes
the record's code points if and only if the second field is exactly
`"W"` or `"F"`; moreover `lo = hi` when the token has no `".."`
separator, and `lo`/`hi` come from the two sides of `".."` otherwise. -/
theorem eaw_filter_iff (line : String) (lo hi : Int)
    (hf : 2 ≤ (lineFields line).length)
    (htok : eawTokenRange ((lineFields line).getD 0 "") = .ok (lo, hi)) :
    (eawLine line = .ok (some (lo, hi)) ↔
      ((lineFields line).getD 1 "" = "W" ∨ (lineFields line).getD 1 "" = "F")) ∧
    (pyIn ".." ((lineFields line).getD 0 "") = false → lo = hi) ∧
    (∀ a b, pySplitStr ((lineFields line).getD 0 "") ".." = [a, b] →
      pyIntHex a = some lo ∧ pyIntHex b = some hi) := by
  have hne := stripped_ne_of_fields line hf
  have hlen : ¬ (lineFields line).length < 2 := by omega
  refine ⟨?_, ?_, ?_⟩
  · rw [eawLine, if_neg hne, if_neg hlen]
    by_cases hprop : (lineFields line).getD 1 "" = "W" ∨
        (lineFields line).getD 1 "" = "F"
    · rw [if_pos hprop, htok]
      exact iff_of_true rfl hprop
    · rw [if_neg hprop]
      exact iff_of_false (by simp) hprop
  · intro hnin
    rw [eawTokenRange, hnin] at htok
    simp only [Bool.false_eq_true, if_false] at htok
    cases hv : pyIntHex ((lineFields line).getD 0 "") with
    | none => rw [hv] at htok; exact absurd htok (by simp)
    | some v =>
      rw [hv] at htok
      have := Except.ok.inj htok
      have h1 : v = lo := congrArg Prod.fst this
      have h2 : v = hi := congrArg Prod.snd this
      omega
  · intro a b hab
    have hin : pyIn ".." ((lineFields line).getD 0 "") = true := by
      unfold pyIn
      rw [hab]
      rfl
    have hstep : eawTokenRange ((lineFields line).getD 0 "") =
        match pyIntHex a, pyIntHex b with
        | some l, some h => Except.ok (l, h)
        | _, _ => Except.error () := by
      rw [eawTokenRange, hin, if_pos rfl, hab]
    rw [hstep] at htok
    cases ha : pyIntHex a with
    | none => rw [ha] at htok; exact absurd htok (by simp)
    | some va =>
      cases hb : pyIntHex b with
      | none => rw [ha, hb] at htok; exact absurd htok (by simp)
      | some vb =>
        rw [ha, hb] at htok
        simp only [Except.ok.injEq, Prod.mk.injEq] at htok
        exact ⟨congrArg some htok.1, congrArg some htok.2⟩

/-- Witness for C3 at the concrete record `"FF01..FF03;F"`. -/
theorem eaw_filter_iff_witness :
    eawLine "FF01..FF03;F" = .ok (some ((0xFF01 : Int), (0xFF03 : Int))) :=
  (eaw_filter_iff "FF01..FF03;F" 0xFF01 0xFF03 (by decide)
    (by rfl)).1.mpr (Or.inr (by decide))

/-- **C4.** A line of the emoji variation sequence document contributes
its first token as a base code point iff the style field is exactly
`"emoji style"`, the first field splits into exactly two
whitespace-separated tokens, and the second token parses to exactly
`0xFE0F`; a line whose token count is not two is silently skipped (not
an error) regardless of label, and a two-token sequence ending in
`0xFE0E` is excluded even if labeled `"emoji style"`. -/
theorem evs_filter_iff (line : String) :
    (∀ base : Int, evsLine line = .ok (some base) ↔
      (2 ≤ (lineFields line).length ∧
       (lineFields line).getD 1 "" = "emoji style" ∧
       (pySplitWhitespace ((lineFields line).getD 0 "")).length = 2 ∧
       pyIntHex ((pySplitWhitespace ((lineFields line).getD 0 "")).getD 0 "")
         = some base ∧
       pyIntHex ((pySplitWhitespace ((lineFields line).getD 0 "")).getD 1 "")
         = some (0xFE0F : Int))) ∧
    ((pySplitWhitespace ((lineFields line).getD 0 "")).length ≠ 2 →
      evsLine line = .ok none) ∧
    (∀ b : Int,
      pyIntHex ((pySplitWhitespace ((lineFields line).getD 0 "")).getD 1 "")
        = some (0xFE0E : Int) →
      evsLine line ≠ .ok (some b)) := by
  have hiff : ∀ base : Int, evsLine line = .ok (some base) ↔
      (2 ≤ (lineFields line).length ∧
       (lineFields line).getD 1 "" = "emoji style" ∧
       (pySplitWhitespace ((lineFields line).getD 0 "")).length = 2 ∧
       pyIntHex ((pySplitWhitespace ((lineFields line).getD 0 "")).getD 0 "")
         = some base ∧
       pyIntHex ((pySplitWhitespace ((lineFields line).getD 0 "")).getD 1 "")
         = some (0xFE0F : Int)) := by
    intro base
    constructor
    · intro hacc
      by_cases h1 : lineStripped line = ""
      · rw [evsLine, if_pos h1] at hacc
        simp at hacc
      by_cases h2 : (lineFields line).length < 2
      · rw [evsLine, if_neg h1, if_pos h2] at hacc
        simp at hacc
      by_cases h3 : (lineFields line).getD 1 "" = "emoji style"
      case neg =>
        rw [evsLine, if_neg h1, if_neg h2, if_neg h3] at hacc
        simp at hacc
      by_cases h4 : (pySplitWhitespace ((lineFields line).getD 0 "")).length = 2
      case neg =>
        rw [evsLine, if_neg h1, if_neg h2, if_pos h3, if_neg h4] at hacc
        simp at hacc
      have hred : evsLine line =
          match pyIntHex ((pySplitWhitespace ((lineFields line).getD 0 "")).getD 0 ""),
                pyIntHex ((pySplitWhitespace ((lineFields line).getD 0 "")).getD 1 "") with
          | some b, some vs =>
            if vs = (0xFE0F : Int) then .ok (some b) else .ok none
          | _, _ => .error () := by
        rw [evsLine, if_neg h1, if_neg h2, if_pos h3, if_pos h4]
      cases hb : pyIntHex ((pySplitWhitespace ((lineFields line).getD 0 "")).getD 0 "") with
      | none =>
        rw [hb] at hred
        simp only at hred
        rw [hred] at hacc
        simp at hacc
      | some vb =>
        cases hv : pyIntHex ((pySplitWhitespace ((lineFields line).getD 0 "")).getD 1 "") with
        | none =>
          rw [hb, hv] at hred
          simp only at hred
          rw [hred] at hacc
          simp at hacc
        | some vv =>
          rw [hb, hv] at hred
          simp only at hred
          by_cases h5 : vv = (0xFE0F : Int)
          · rw [if_pos h5] at hred
            rw [hred] at hacc
            simp only [Except.ok.injEq, Option.some.injEq] at hacc
            subst hacc
            rw [h5] at hv
            exact ⟨by omega, h3, h4, rfl, by rw [h5]⟩
          · rw [if_neg h5] at hred
            rw [hred] at hacc
            simp at hacc
    · rintro ⟨hflen, hstyle, hparts, hbase, hvs⟩
      have h1 := stripped_ne_of_fields line hflen
      rw [evsLine, if_neg h1, if_neg (by omega), if_pos hstyle, if_pos hparts,
        hbase, hvs]
      simp
  refine ⟨hiff, ?_, ?_⟩
  · intro hp
    by_cases h1 : lineStripped line = ""
    · rw [evsLine, if_pos h1]
    · by_cases h2 : (lineFields line).length < 2
      · rw [evsLine, if_neg h1, if_pos h2]
      · by_cases h3 : (lineFields line).getD 1 "" = "emoji style"
        · rw [evsLine, if_neg h1, if_neg h2, if_pos h3, if_neg hp]
        · rw [evsLine, if_neg h1, if_neg h2, if_neg h3]
  · intro b hvs hacc
    obtain ⟨_, _, _, _, hfe0f⟩ := (hiff b).mp hacc
    rw [hvs] at hfe0f
    exact absurd hfe0f (by decide)

/-- Witness for C4: the spec's example `"0026 FE0E ; emoji style"` (a
VS15 sequence) is not accepted as base `0x26`. -/
theorem evs_filter_iff_witness :
    evsLine "0026 FE0E ; emoji style" ≠ .ok (some (0x26 : Int)) :=
  (evs_filter_iff "0026 FE0E ; emoji style").2.2 0x26 (by rfl)

/-! ## Fatal-error propagation -/

/-- An accepted record whose token conversion raises makes the whole
line iteration raise. -/
theorem eawLine_error (line : String)
    (hf : 2 ≤ (lineFields line).length)
    (hprop : (lineFields line).getD 1 "" = "W" ∨ (lineFields line).getD 1 "" = "F")
    (htok : eawTokenRange ((lineFields line).getD 0 "") = .error ()) :
    eawLine line = .error () := by
  rw [eawLine, if_neg (stripped_ne_of_fields line hf), if_neg (by omega),
    if_pos hprop, htok]
  rfl

/-- A raising line makes the whole collection loop raise. -/
theorem eawCollect_error : ∀ (lines : List String) (line : String),
    line ∈ lines → eawLine line = .error () →
    eawCollect lines = .error () := by
  intro lines
  induction lines with
  | nil => intro line h; exact absurd h (List.not_mem_nil line)
  | cons hd tl ih =>
    intro line hmem herr
    rcases List.mem_cons.mp hmem with rfl | hmem'
    · rw [eawCollect, herr]
    · rw [eawCollect]
      cases hhd : eawLine hd with
      | error e => rfl
      | ok r =>
        cases r with
        | none => exact ih line hmem' herr
        | some p => rw [ih line hmem' herr]; rfl

/-- **C7.** A document containing an accepted East Asian Width record
(property `"W"` or `"F"`) whose range/point token conversion raises (a
malformed hex token, or a token `".."`-split that does not destructure)
makes the run fail fatally: `parse_east_asian_width` raises before
returning, and `main` errors out before the write step, so the output
artifact is neither produced nor modified. -/
theorem malformed_hex_fatal (text line : String)
    (hmem : line ∈ splitlines text)
    (hf : 2 ≤ (lineFields line).length)
    (hprop : (lineFields line).getD 1 "" = "W" ∨ (lineFields line).getD 1 "" = "F")
    (htok : eawTokenRange ((lineFields line).getD 0 "") = .error ()) :
    parse_east_asian_width text = .error () ∧
    ∀ evsText, mainRun text evsText = .error () := by
  have hparse : parse_east_asian_width text = .error () := by
    rw [parse_east_asian_width,
      eawCollect_error (splitlines text) line hmem (eawLine_error line hf hprop htok)]
    rfl
  refine ⟨hparse, ?_⟩
  intro evsText
  rw [mainRun, hparse]

/-- Witness for C7 at the one-line document `"ZZ;W"` (accepted record,
non-hex token). -/
theorem malformed_hex_fatal_witness :
    parse_east_asian_width "ZZ;W" = .error () :=
  (malformed_hex_fatal "ZZ;W" "ZZ;W" (by decide) (by decide)
    (Or.inl (by decide)) (by rfl)).1

/-- **C9.** An East Asian Width line with property `"W"` or `"F"` whose
first field splits on `".."` into more than two parts (the separator
occurs more than once) raises an uncaught exception — the two-variable
destructuring fails — instead of being skipped. -/
theorem double_dots_fatal (line text : String)
    (hf : 2 ≤ (lineFields line).length)
    (hprop : (lineFields line).getD 1 "" = "W" ∨ (lineFields line).getD 1 "" = "F")
    (hsplit : 2 < (pySplitStr ((lineFields line).getD 0 "") "..").length) :
    eawLine line = .error () ∧
    (line ∈ splitlines text → parse_east_asian_width text = .error ()) := by
  have hin : pyIn ".." ((lineFields line).getD 0 "") = true := by
    unfold pyIn
    exact decide_eq_true (by omega)
  have htok : eawTokenRange ((lineFields line).getD 0 "") = .error () := by
    rw [eawTokenRange, hin, if_pos rfl]
    generalize hsp : pySplitStr ((lineFields line).getD 0 "") ".." = L at hsplit ⊢
    rcases L with _ | ⟨x, _ | ⟨y, _ | ⟨z, rest⟩⟩⟩
    · simp at hsplit
    · simp at hsplit
    · simp at hsplit
    · rfl
  have herr := eawLine_error line hf hprop htok
  refine ⟨herr, ?_⟩
  intro hmem
  rw [parse_east_asian_width, eawCollect_error (splitlines text) line hmem herr]
  rfl

/-- Witness for C9 at the record `"1..2..3;W"`. -/
theorem double_dots_fatal_witness :
    eawLine "1..2..3;W" = .error () :=
  (double_dots_fatal "1..2..3;W" "" (by decide) (Or.inl (by decide))
    (by decide)).1

/-- **C10.** `parse_east_asian_width` never validates `lo ≤ hi`: an
accepted record `"X..Y;W"` with valid hex tokens passes the parsed pair
to the merger as-is, and on the concrete input `"FF10..FF01;W"` the
returned collection contains the range `(0xFF10, 0xFF01)` whose `lo`
exceeds its `hi`. -/
theorem no_bounds_validation (line a b : String) (lo hi : Int)
    (hf : 2 ≤ (lineFields line).length)
    (hprop : (lineFields line).getD 1 "" = "W" ∨ (lineFields line).getD 1 "" = "F")
    (hsplit : pySplitStr ((lineFields line).getD 0 "") ".." = [a, b])
    (hlo : pyIntHex a = some lo) (hhi : pyIntHex b = some hi) :
    eawLine line = .ok (some (lo, hi)) ∧
    parse_east_asian_width "FF10..FF01;W" = .ok [((0xFF10 : Int), (0xFF01 : Int))] ∧
    (0xFF01 : Int) < 0xFF10 := by
  have hin : pyIn ".." ((lineFields line).getD 0 "") = true := by
    unfold pyIn
    rw [hsplit]
    rfl
  have hstep : eawTokenRange ((lineFields line).getD 0 "") =
      match pyIntHex a, pyIntHex b with
      | some l, some h => Except.ok (l, h)
      | _, _ => Except.error () := by
    rw [eawTokenRange, hin, if_pos rfl, hsplit]
  have htok : eawTokenRange ((lineFields line).getD 0 "") = .ok (lo, hi) := by
    rw [hstep, hlo, hhi]
  refine ⟨?_, by rfl, by decide⟩
  rw [eawLine, if_neg (stripped_ne_of_fields line hf), if_neg (by omega),
    if_pos hprop, htok]
  rfl

/-- Witness for C10 at the record `"FF10..FF01;W"`. -/
theorem no_bounds_validation_witness :
    eawLine "FF10..FF01;W" = .ok (some ((0xFF10 : Int), (0xFF01 : Int))) :=
  (no_bounds_validation "FF10..FF01;W" "FF10" "FF01" 0xFF10 0xFF01
    (by decide) (Or.inl (by decide)) (by rfl) (by rfl) (by rfl)).1

/-- **C8 counterexample.** The claim says a line labeled
`"emoji style"` whose first field does not have exactly two tokens is a
fatal format error that aborts the run; in fact the code skips it with
`continue`: on the one-line document `"0023 ; emoji style"` the line
iteration returns a skip (not an error) and the whole parse succeeds. -/
theorem token_count_not_fatal_cex :
    evsLine "0023 ; emoji style" = .ok none ∧
    parse_emoji_vs16_bases "0023 ; emoji style" = .ok [] :=
  ⟨by rfl, by rfl⟩

/-- **C8 (amended).** A line labeled `"emoji style"` whose first field
has a token count other than exactly two is silently skipped (treated
as non-matching), not a fatal error: the line contributes nothing and
the run continues. -/
theorem token_count_silently_skipped (line : String)
    (hstyle : (lineFields line).getD 1 "" = "emoji style")
    (hparts : (pySplitWhitespace ((lineFields line).getD 0 "")).length ≠ 2) :
    evsLine line = .ok none := by
  by_cases h1 : lineStripped line = ""
  · rw [evsLine, if_pos h1]
  · by_cases h2 : (lineFields line).length < 2
    · rw [evsLine, if_neg h1, if_pos h2]
    · rw [evsLine, if_neg h1, if_neg h2, if_pos hstyle, if_neg hparts]

/-- Witness for the amended C8 at the line `"0023 FE0F FE0F ; emoji style"`
(three tokens). -/
theorem token_count_silently_skipped_witness :
    evsLine "0023 FE0F FE0F ; emoji style" = .ok none :=
  token_count_silently_skipped "0023 FE0F FE0F ; emoji style"
    (by decide) (by decide)

end UnicodeWidthGen

